import Mathlib

/-!
Shallow embedding of the differential-storage engine of the Hatch-Registry
repository (files `hatch_registry/registry_diff.py` and
`hatch_registry/registry_core.py`).

Python dictionaries with string keys are modelled as association lists in
insertion order; inserting an existing key overwrites the value in place
(Python dicts keep the original key position), inserting a new key appends.
Dependency records (Python dicts such as
`{"name": "a", "version_constraint": ">=1.0"}`) are association lists from
field name to string value.  `dict.get` is `Option`-valued lookup;
`item[key]` (which raises `KeyError` when the key is missing) is modelled by
making the surrounding operation return `Option` and yield `none` on a
missing key.  A Python function that can raise, or that can fail to
terminate, is modelled as returning `Option`, with `none` for the raising /
diverging runs.  CPython iterates over `set(...)` in unspecified order; the
embedding iterates in dictionary insertion order, which produces the same
output sets.
-/

namespace HatchRegistry

/-- A Python dict with string keys used as a record: field name ↦ string value. -/
abbrev Rec := List (String × String)

/-- Lookup in an association list: `d.get(k)` for a Python dict in insertion order. -/
def alookup {α : Type} (d : List (String × α)) (k : String) : Option α :=
  (d.find? (fun p => p.1 == k)).map (fun p => p.2)

/-- Python `d[k] = v` on a dict in insertion order: overwrite in place or append. -/
def dinsert {α : Type} (d : List (String × α)) (k : String) (v : α) : List (String × α) :=
  match d with
  | [] => [(k, v)]
  | (k', v') :: rest => if k' == k then (k, v) :: rest else (k', v') :: dinsert rest k v

/-- Keys of a dict, in insertion order. -/
def akeys {α : Type} (d : List (String × α)) : List String :=
  d.map (fun p => p.1)

/-- Field access `item.get(field)` on a record. -/
def dictGet (r : Rec) (f : String) : Option String :=
  alookup r f

/-- The dict comprehension `{item[key_field]: item for item in items}` of
`_compute_generic_diff` (registry_diff.py line 45): builds a dict keyed by the
record's `key_field` value, last write wins, first key position kept;
`none` models the `KeyError` raised when a record lacks the key field. -/
def buildDict (keyField : String) (items : List Rec) : Option (List (String × Rec)) :=
  items.foldl
    (fun acc item =>
      acc.bind (fun d => (dictGet item keyField).map (fun k => dinsert d k item)))
    (some [])

/-- `RegistryDiff._compute_generic_diff` (registry_diff.py lines 25-68).
Returns `(added, removed, modified)`; `none` models a `KeyError` from a
record that lacks the key field.  `added` is the new records whose key is
absent from the old dict, `removed` the bare keys absent from the new dict,
`modified` the new records of shared keys for which some watched field
differs (`old_item.get(field) != new_item.get(field)`). -/
def computeGenericDiff (old_items new_items : List Rec) (keyField : String)
    (diffFields : List String) : Option (List Rec × List String × List Rec) :=
  match buildDict keyField old_items, buildDict keyField new_items with
  | some od, some nd =>
    let added := (nd.filter (fun p => !(alookup od p.1).isSome)).map (fun p => p.2)
    let removed := (od.filter (fun p => !(alookup nd p.1).isSome)).map (fun p => p.1)
    let modified := (nd.filter (fun p =>
      match alookup od p.1 with
      | some oldItem => diffFields.any (fun f => !(dictGet oldItem f == dictGet p.2 f))
      | none => false)).map (fun p => p.2)
    some (added, removed, modified)
  | _, _ => none

/-- `RegistryDiff.compute_dependency_diff` (registry_diff.py lines 70-84). -/
def compute_dependency_diff (old_deps new_deps : List Rec) :
    Option (List Rec × List String × List Rec) :=
  computeGenericDiff old_deps new_deps "name" ["version_constraint"]

/-- `RegistryDiff.compute_python_dependency_diff` (registry_diff.py lines 86-101). -/
def compute_python_dependency_diff (old_deps new_deps : List Rec) :
    Option (List Rec × List String × List Rec) :=
  computeGenericDiff old_deps new_deps "name" ["version_constraint", "package_manager"]

/-- `RegistryDiff.compute_compatibility_diff` (registry_diff.py lines 103-124):
for the fixed keys `hatchling` and `python`, include the new value whenever it
differs from the old one, treating an absent key as `""`. -/
def compute_compatibility_diff (old_compat new_compat : List (String × String)) :
    List (String × String) :=
  ["hatchling", "python"].foldl
    (fun changes key =>
      let old_val := (alookup old_compat key).getD ""
      let new_val := (alookup new_compat key).getD ""
      if old_val == new_val then changes else changes ++ [(key, new_val)])
    []

/-- A version record of a package, as stored in the registry JSON.  An absent
delta field (the writer omits empty deltas) is `none`; `reconstruct` reads the
fields with `ver.get(field, [])`, so `none` and `some []` replay identically.
The `author` and `release_uri` fields play no role in any claim and are not
modelled. -/
structure VersionRec where
  version : String
  added_date : String
  base_version : Option String := none
  hatch_dependencies_added : Option (List Rec) := none
  hatch_dependencies_removed : Option (List String) := none
  hatch_dependencies_modified : Option (List Rec) := none
  python_dependencies_added : Option (List Rec) := none
  python_dependencies_removed : Option (List String) := none
  python_dependencies_modified : Option (List Rec) := none
  compatibility_changes : Option (List (String × String)) := none
deriving DecidableEq, Repr

/-- A package entry: name, ordered version history, `latest_version` pointer.
The `description`/`tags`/`author` fields play no role in any claim. -/
structure Package where
  name : String
  versions : List VersionRec
  latest_version : String
deriving DecidableEq, Repr

/-- A repository: name and its packages. -/
structure Repo where
  name : String
  packages : List Package
deriving DecidableEq, Repr

/-- The registry: the `repositories` list of the registry JSON document
(the `stats` and timestamp bookkeeping play no role in any claim). -/
abbrev Registry := List Repo

/-- Full (non-differential) package metadata, as supplied by a caller of the
Version Writer: dependency records plus the compatibility map. -/
structure Metadata where
  name : String
  version : String
  hatch_dependencies : List Rec
  python_dependencies : List Rec
  compatibility : List (String × String)
deriving DecidableEq, Repr

/-- The dict built by `reconstruct_package_version` (registry_diff.py
lines 169-175). -/
structure Reconstructed where
  name : String
  version : String
  hatch_dependencies : List Rec
  python_dependencies : List Rec
  compatibility : List (String × String)
deriving DecidableEq, Repr

/-- Python truthiness of `version_info.get("base_version")`: the loop
continues only when the field is present and a non-empty string. -/
def truthyBase (v : VersionRec) : Bool :=
  !(v.base_version.getD "" == "")

/-- The chain-collection loop of `reconstruct_package_version`
(registry_diff.py lines 153-166), with explicit fuel: while the current
record's `base_version` is truthy, append the record to the chain and move to
the first stored record whose `version` equals it; when the lookup finds
nothing, `version_info` is left unchanged and the Python loop repeats the
same iteration forever, which the embedding models by exhausting the fuel and
returning `none`.  On exit the result is the collected chain (newest first)
and the record the walk stopped at (the root). -/
def chainLoop (pvs : List VersionRec) : Nat → VersionRec → List VersionRec →
    Option (List VersionRec × VersionRec)
  | 0, _, _ => none
  | fuel + 1, vi, chain =>
    if truthyBase vi then
      match pvs.find? (fun v => v.version == vi.base_version.getD "") with
      | some next => chainLoop pvs fuel next (chain ++ [vi])
      | none => chainLoop pvs fuel vi (chain ++ [vi])
    else
      some (chain, vi)

/-- Removal pass of the replay (registry_diff.py lines 186-190 and 206-210):
keep the records whose `name` field differs from the removed name
(`d.get("name") != dep_name`; a record without a name is always kept). -/
def removePass (deps : List Rec) (names : List String) : List Rec :=
  names.foldl (fun l n => l.filter (fun d => !(dictGet d "name" == some n))) deps

/-- One step of the modification pass (registry_diff.py lines 193-197 and
213-217): replace the first record whose `name` field equals the modified
record's `name` field (both read with `.get`, so two absent names compare
equal), leaving the list unchanged when there is no match. -/
def replaceFirstByName (m : Rec) : List Rec → List Rec
  | [] => []
  | d :: rest =>
    if dictGet d "name" == dictGet m "name" then m :: rest
    else d :: replaceFirstByName m rest

/-- Modification pass of the replay. -/
def modifyPass (deps : List Rec) (mods : List Rec) : List Rec :=
  mods.foldl (fun l m => replaceFirstByName m l) deps

/-- Replay of one version record's deltas onto the accumulator
(registry_diff.py lines 178-222): append the added records, filter out the
removed names, replace the modified records, overwrite the changed
compatibility keys.  Absent delta fields are read as empty
(`ver.get(field, [])`). -/
def applyVersionRec (acc : Reconstructed) (v : VersionRec) : Reconstructed :=
  let h := acc.hatch_dependencies ++ v.hatch_dependencies_added.getD []
  let h := removePass h (v.hatch_dependencies_removed.getD [])
  let h := modifyPass h (v.hatch_dependencies_modified.getD [])
  let p := acc.python_dependencies ++ v.python_dependencies_added.getD []
  let p := removePass p (v.python_dependencies_removed.getD [])
  let p := modifyPass p (v.python_dependencies_modified.getD [])
  let c := (v.compatibility_changes.getD []).foldl
    (fun m kv => dinsert m kv.1 kv.2) acc.compatibility
  { acc with hatch_dependencies := h, python_dependencies := p, compatibility := c }

/-- `RegistryDiff.reconstruct_package_version` (registry_diff.py lines
126-225) with the start record passed explicitly (both call sites in the
repository pass one).  The chain walk gets fuel `|versions| + 2`: a
terminating Python walk visits each stored record at most once (revisiting a
record repeats the walk's deterministic state forever), so the fuel never cuts
off a terminating run, and `none` is returned exactly when the Python loop
never terminates.  The accumulator starts from empty lists and an empty
compatibility map and replays the collected chain oldest-to-newest; the root
record is not part of the collected chain and its deltas are never replayed;
the returned `version` field is the root's. -/
def reconstruct_package_version (pkg : Package) (startInfo : VersionRec) :
    Option Reconstructed :=
  match chainLoop pkg.versions (pkg.versions.length + 2) startInfo [] with
  | none => none
  | some (chain, root) =>
    some (chain.reverse.foldl applyVersionRec
      { name := pkg.name, version := root.version,
        hatch_dependencies := [], python_dependencies := [], compatibility := [] })

/-- `RegistryCore.find_repository` (registry_core.py lines 136-151). -/
def findRepository (reg : Registry) (repoName : String) : Option Repo :=
  reg.find? (fun r => r.name == repoName)

/-- `RegistryCore.find_package` (registry_core.py lines 194-212). -/
def findPackage (reg : Registry) (repoName packageName : String) : Option Package :=
  (findRepository reg repoName).bind
    (fun r => r.packages.find? (fun p => p.name == packageName))

/-- `RegistryCore.find_version` (registry_core.py lines 214-233). -/
def findVersion (reg : Registry) (repoName packageName version : String) :
    Option VersionRec :=
  (findPackage reg repoName packageName).bind
    (fun p => p.versions.find? (fun v => v.version == version))

/-- Replace the first element satisfying the predicate by its image, as the
Python code does by mutating the object returned by a `find_*` lookup. -/
def updateFirst {α : Type} (p : α → Bool) (f : α → α) : List α → List α
  | [] => []
  | x :: xs => if p x then f x :: xs else x :: updateFirst p f xs

/-- Mutation of the first matching repository inside the registry. -/
def updateFirstRepo (reg : Registry) (repoName : String) (f : Repo → Repo) : Registry :=
  updateFirst (fun r => r.name == repoName) f reg

/-- Mutation of the first matching package of the first matching repository. -/
def updateFirstPackage (reg : Registry) (repoName packageName : String)
    (f : Package → Package) : Registry :=
  updateFirstRepo reg repoName
    (fun r => { r with packages := updateFirst (fun p => p.name == packageName) f r.packages })

/-- The root version record built inline by `RegistryCore.add_package`
(registry_core.py lines 352-362): no `base_version`, the metadata's full
dependency lists stored as the `_added` fields and the full compatibility map
stored as `compatibility_changes`, all three unconditionally present. -/
def rootRec (md : Metadata) (now : String) : VersionRec :=
  { version := md.version
    added_date := now
    base_version := none
    hatch_dependencies_added := some md.hatch_dependencies
    python_dependencies_added := some md.python_dependencies
    compatibility_changes := some md.compatibility }

/-- `RegistryCore.add_package` (registry_core.py lines 309-376): requires the
repository to exist, a non-empty package name (`if not package_name`), and no
package of that name yet; on success appends a fresh package whose only
version is the root record and whose `latest_version` is the metadata's
version.  `datetime.now()` is passed in as `now`. -/
def addPackage (reg : Registry) (repoName : String) (md : Metadata) (now : String) :
    Registry × Bool :=
  match findRepository reg repoName with
  | none => (reg, false)
  | some _ =>
    if md.name == "" then (reg, false)
    else if (findPackage reg repoName md.name).isSome then (reg, false)
    else
      let pkg : Package :=
        { name := md.name, versions := [rootRec md now], latest_version := md.version }
      (updateFirstRepo reg repoName
        (fun r => { r with packages := r.packages ++ [pkg] }), true)

/-- Python truthiness of a list (`if hatch_dependencies_added:`): a delta
field is stored only when non-empty, otherwise the key is omitted. -/
def optList {α : Type} (l : List α) : Option (List α) :=
  if l.isEmpty then none else some l

/-- The dict returned by `RegistryCore._prepare_registry_version_diff_data`
(registry_core.py lines 471-546). -/
structure DiffData where
  base_version : String
  hatch_dependencies_added : Option (List Rec)
  hatch_dependencies_removed : Option (List String)
  hatch_dependencies_modified : Option (List Rec)
  python_dependencies_added : Option (List Rec)
  python_dependencies_removed : Option (List String)
  python_dependencies_modified : Option (List Rec)
  compatibility_changes : Option (List (String × String))
deriving DecidableEq, Repr

/-- `RegistryCore._prepare_registry_version_diff_data` (registry_core.py
lines 471-546): look up the package (`pkg["latest_version"]` raises on a
missing package → `none`), take the last stored version record
(`pkg["versions"][-1]` raises on an empty history → `none`), reconstruct its
full metadata, diff it against the new metadata, and keep only the non-empty
delta fields; `base_version` is always the package's `latest_version`. -/
def prepareRegistryVersionDiffData (reg : Registry) (repoName : String)
    (md : Metadata) : Option DiffData := do
  let pkg ← findPackage reg repoName md.name
  let latestInfo ← pkg.versions.getLast?
  let full ← reconstruct_package_version pkg latestInfo
  let (ha, hr, hm) ← compute_dependency_diff full.hatch_dependencies md.hatch_dependencies
  let (pa, pr, pm) ←
    compute_python_dependency_diff full.python_dependencies md.python_dependencies
  let cc := compute_compatibility_diff full.compatibility md.compatibility
  return { base_version := pkg.latest_version
           hatch_dependencies_added := optList ha
           hatch_dependencies_removed := optList hr
           hatch_dependencies_modified := optList hm
           python_dependencies_added := optList pa
           python_dependencies_removed := optList pr
           python_dependencies_modified := optList pm
           compatibility_changes := optList cc }

/-- `RegistryCore.add_new_package_version` (registry_core.py lines 548-607):
missing repository or already-present version return `False` with the
registry untouched; a failure inside the diff preparation (missing package,
empty history, non-terminating reconstruction, diff `KeyError`) propagates as
an exception with the registry untouched (`none`); otherwise the prepared
record is appended to the package's history and `latest_version` is set to
the new version. -/
def addNewPackageVersion (reg : Registry) (repoName : String) (md : Metadata)
    (now : String) : Option (Registry × Bool) :=
  match findRepository reg repoName with
  | none => some (reg, false)
  | some _ =>
    if (findVersion reg repoName md.name md.version).isSome then some (reg, false)
    else
      match prepareRegistryVersionDiffData reg repoName md with
      | none => none
      | some dd =>
        let vrec : VersionRec :=
          { version := md.version
            added_date := now
            base_version := some dd.base_version
            hatch_dependencies_added := dd.hatch_dependencies_added
            hatch_dependencies_removed := dd.hatch_dependencies_removed
            hatch_dependencies_modified := dd.hatch_dependencies_modified
            python_dependencies_added := dd.python_dependencies_added
            python_dependencies_removed := dd.python_dependencies_removed
            python_dependencies_modified := dd.python_dependencies_modified
            compatibility_changes := dd.compatibility_changes }
        some (updateFirstPackage reg repoName md.name
          (fun pkg =>
            { pkg with versions := pkg.versions ++ [vrec],
                        latest_version := md.version }), true)

/-- Python `max(versions, key=lambda v: v.get("added_date", ""))`: the first
record with the maximal `added_date` (a later record replaces the current one
only when strictly greater). -/
def maxByAddedDate (v : VersionRec) (vs : List VersionRec) : VersionRec :=
  vs.foldl (fun acc x => if acc.added_date < x.added_date then x else acc) v

/-- The package object after `remove_version` dropped the records carrying
the given version string (registry_core.py lines 282-297): when the removed
version was the `latest_version`, it is repointed at the remaining record
with the greatest `added_date`, or at `""` when the history becomes empty. -/
def removedPackage (version : String) (pkg : Package) : Package :=
  { pkg with
    versions := pkg.versions.filter (fun v => !(v.version == version))
    latest_version :=
      if pkg.latest_version == version then
        match pkg.versions.filter (fun v => !(v.version == version)) with
        | [] => ""
        | v :: vs => (maxByAddedDate v vs).version
      else pkg.latest_version }

/-- The body of `remove_version` once the package has been found
(registry_core.py lines 282-307). -/
def removeVersionUpdate (reg : Registry) (repoName packageName version : String)
    (pkg : Package) : Registry × Bool :=
  if (pkg.versions.filter (fun v => !(v.version == version))).length <
      pkg.versions.length then
    (updateFirstPackage reg repoName packageName (fun _ => removedPackage version pkg),
     true)
  else (reg, false)

/-- `RegistryCore.remove_version` (registry_core.py lines 265-307). -/
def removeVersion (reg : Registry) (repoName packageName version : String) :
    Registry × Bool :=
  match findPackage reg repoName packageName with
  | none => (reg, false)
  | some pkg => removeVersionUpdate reg repoName packageName version pkg

/-- The input list with, for every key, only the last record bearing that key
(the record a Python dict comprehension would retain), placed at the key's
first position (the position a Python dict would retain).  Records whose key
field is absent are grouped under the absent key. -/
def lastWins (kf : String) : List Rec → List Rec
  | [] => []
  | r :: rest =>
    ((rest.reverse.find? (fun r' => dictGet r' kf == dictGet r kf)).getD r) ::
      lastWins kf (rest.filter (fun r' => !(dictGet r' kf == dictGet r kf)))
termination_by l => l.length
decreasing_by
  simp only [List.length_cons]
  exact Nat.lt_succ_of_le (List.length_filter_le _ _)

/-- The dict-building fold of `_compute_generic_diff` started from an
arbitrary dict, used to reason about `buildDict` one record at a time. -/
def buildDictFrom (kf : String) (d : List (String × Rec)) (items : List Rec) :
    Option (List (String × Rec)) :=
  items.foldl
    (fun acc item =>
      acc.bind (fun d' => (dictGet item kf).map (fun k => dinsert d' k item)))
    (some d)

/-- The `latest_version` invariant of the data model: every package whose
`latest_version` is non-empty has a stored record carrying that version. -/
def LatestInVersions (reg : Registry) : Prop :=
  ∀ repo ∈ reg, ∀ pkg ∈ repo.packages,
    pkg.latest_version ≠ "" →
      ∃ v ∈ pkg.versions, v.version = pkg.latest_version

/-- One mutating registry operation: `add_package`, `add_new_package_version`
(including the runs that raise and leave the registry untouched), or
`remove_version`, each with arbitrary arguments. -/
def RegStep (reg reg' : Registry) : Prop :=
  (∃ rn md now, reg' = (addPackage reg rn md now).1) ∨
  (∃ rn md now,
    (addNewPackageVersion reg rn md now = none ∧ reg' = reg) ∨
    ∃ b, addNewPackageVersion reg rn md now = some (reg', b)) ∨
  (∃ rn pn ver, reg' = (removeVersion reg rn pn ver).1)

/-- Metadata snapshot M₁ of the worked examples: one hatch dependency. -/
def mdOne : Metadata :=
  { name := "pkgA", version := "1.0.0"
    hatch_dependencies := [[("name", "a"), ("version_constraint", ">=1.0")]]
    python_dependencies := [], compatibility := [] }

/-- Metadata snapshot M₂ of the worked examples: the same single dependency
with only its `version_constraint` changed. -/
def mdTwo : Metadata :=
  { name := "pkgA", version := "1.1.0"
    hatch_dependencies := [[("name", "a"), ("version_constraint", ">=1.1")]]
    python_dependencies := [], compatibility := [] }

/-- A registry with one empty repository, the starting state of the worked
examples. -/
def regEmpty : Registry := [{ name := "repo1", packages := [] }]

/-- The registry after `add_package` stored M₁ as the root version. -/
def regOne : Registry := (addPackage regEmpty "repo1" mdOne "d1").1

/-- The run of `add_new_package_version` writing M₂ on top of M₁. -/
def regTwoRun : Option (Registry × Bool) :=
  addNewPackageVersion regOne "repo1" mdTwo "d2"

/-- The version record `add_new_package_version` stored for M₂. -/
def recTwo : Option VersionRec :=
  regTwoRun.bind (fun rb =>
    (findPackage rb.1 "repo1" "pkgA").bind (fun p => p.versions.getLast?))

/-- A stored version record whose `base_version` names no stored version. -/
def danglingRec : VersionRec :=
  { version := "1.0.0", added_date := "d", base_version := some "0.9.0" }

/-- A package whose only version record has a dangling `base_version`. -/
def danglingPkg : Package :=
  { name := "p", versions := [danglingRec], latest_version := "1.0.0" }

/-- Old input of the delta-computer examples. -/
def diffOld : List Rec :=
  [[("name", "a"), ("x", "1")], [("name", "b"), ("x", "2")]]

/-- New input of the delta-computer examples: `a` changed, `b` removed,
`d` added. -/
def diffNew : List Rec :=
  [[("name", "a"), ("x", "9")], [("name", "d"), ("x", "4")]]

/-- A two-version package with an intact chain, for the reconstruction
examples: the second version modifies the root's single dependency. -/
def chainPkg : Package :=
  { name := "p"
    versions :=
      [{ version := "1.0.0", added_date := "d1"
         hatch_dependencies_added := some [[("name", "a"), ("version_constraint", ">=1.0")]] },
       { version := "1.1.0", added_date := "d2", base_version := some "1.0.0"
         hatch_dependencies_added := some [[("name", "a"), ("version_constraint", ">=1.1")]] }]
    latest_version := "1.1.0" }

/-- The second (non-root) version record of `chainPkg`. -/
def chainPkgTop : VersionRec :=
  { version := "1.1.0", added_date := "d2", base_version := some "1.0.0"
    hatch_dependencies_added := some [[("name", "a"), ("version_constraint", ">=1.1")]] }

/-- The metadata `reconstruct_package_version` yields for `chainPkgTop`. -/
def chainPkgRecon : Reconstructed :=
  { name := "p", version := "1.0.0"
    hatch_dependencies := [[("name", "a"), ("version_constraint", ">=1.1")]]
    python_dependencies := [], compatibility := [] }

/-- An input list with two records sharing the key `a`, for the
duplicate-key examples. -/
def dupOld : List Rec :=
  [[("name", "a"), ("x", "1")], [("name", "a"), ("x", "2")]]

/-- The new-side input of the duplicate-key examples. -/
def dupNew : List Rec :=
  [[("name", "a"), ("x", "3")]]

theorem chainLoop_no_base_found (pvs : List VersionRec) (vi : VersionRec)
    (htr : truthyBase vi = true)
    (hfind : pvs.find? (fun v => v.version == vi.base_version.getD "") = none) :
    ∀ fuel chain, chainLoop pvs fuel vi chain = none := by
  intro fuel
  induction fuel with
  | zero => intro chain; rfl
  | succ n ih =>
    intro chain
    rw [chainLoop]
    simp only [htr, if_true, hfind]
    exact ih _

/-- **C1**: the round-trip property fails already at n = 1: after the Version
Writer stores snapshot M₁ as the root version, `reconstruct_package_version`
applied to the package and its first version record returns empty dependency
lists, not M₁'s, because the chain-collection loop exits before the root
record is ever added to the replay chain.  The claim (and the code's own
docstring, which promises complete reconstructed metadata) is the intent; the
code drops the root's deltas. -/
theorem c1_root_version_reconstructs_empty :
    ((findPackage regOne "repo1" "pkgA").bind
      (fun p => p.versions.head?.bind (reconstruct_package_version p))) =
      some { name := "pkgA", version := "1.0.0", hatch_dependencies := [],
             python_dependencies := [], compatibility := [] } ∧
    mdOne.hatch_dependencies = [[("name", "a"), ("version_constraint", ">=1.0")]] := by
  decide

/-- **C2**: on a start record whose `base_version` names no stored version,
`reconstruct_package_version` raises no `ChainBrokenError`-style error: the
chain loop repeats the same iteration forever (no fuel bound makes it
return), so the call never returns at all — exactly what the claim excludes.
The embedding returns `none` for the diverging run. -/
theorem c2_dangling_base_never_returns :
    (∀ fuel chain, chainLoop danglingPkg.versions fuel danglingRec chain = none) ∧
    reconstruct_package_version danglingPkg danglingRec = none := by
  have h := chainLoop_no_base_found danglingPkg.versions danglingRec (by decide) (by decide)
  refine ⟨h, ?_⟩
  unfold reconstruct_package_version
  rw [h]

/-- **C3**: delta minimality fails at k = 1.  M₂ differs from M₁ in exactly
one dependency's `version_constraint` (same name, same compatibility map),
yet the record the Version Writer stores for M₂ carries the dependency in
`hatch_dependencies_added` and has no `_modified` field, because the diff is
computed against the broken (empty) reconstruction of the root. -/
theorem c3_first_differential_record_not_minimal :
    recTwo.map (fun r =>
      (r.hatch_dependencies_added, r.hatch_dependencies_removed,
       r.hatch_dependencies_modified)) =
      some (some [[("name", "a"), ("version_constraint", ">=1.1")]], none, none) ∧
    mdOne.hatch_dependencies = [[("name", "a"), ("version_constraint", ">=1.0")]] ∧
    mdTwo.hatch_dependencies = [[("name", "a"), ("version_constraint", ">=1.1")]] :=
  ⟨rfl, rfl, rfl⟩

/-- **C4 counterexample**: with an empty watched-field set, a record present
in both inputs whose old and new versions differ in field `x` is not reported
in the modified output — `_compute_generic_diff` returns an empty modified
list. -/
theorem c4_any_field_difference_not_reported :
    computeGenericDiff [[("name", "a"), ("x", "1")]] [[("name", "a"), ("x", "2")]]
      "name" [] = some ([], [], []) ∧
    dictGet [("name", "a"), ("x", "1")] "x" ≠ dictGet [("name", "a"), ("x", "2")] "x" := by
  decide

/-- **C4 amended**: when `_compute_generic_diff` is called with an empty set
of watched fields, no record is ever reported in the modified output — the
modified list is always empty, regardless of field differences. -/
theorem c4_empty_diff_fields_modified_empty (old_items new_items : List Rec)
    (keyField : String) (a : List Rec) (r : List String) (m : List Rec)
    (h : computeGenericDiff old_items new_items keyField [] = some (a, r, m)) :
    m = [] := by
  unfold computeGenericDiff at h
  split at h
  case _ od nd h1 h2 =>
    simp only [Option.some.injEq, Prod.mk.injEq] at h
    obtain ⟨-, -, hm⟩ := h
    rw [← hm]
    have hnil : (nd.filter (fun p =>
        match alookup od p.1 with
        | some oldItem =>
          List.any [] (fun f => !(dictGet oldItem f == dictGet p.2 f))
        | none => false)) = [] := by
      apply List.filter_eq_nil_iff.mpr
      intro p _
      cases alookup od p.1 <;> simp
    rw [hnil]
    rfl
  case _ => cases h

theorem c4_empty_diff_fields_modified_empty_witness :
    computeGenericDiff diffOld diffNew "name" [] =
      some ([[("name", "d"), ("x", "4")]], ["b"], []) ∧ ([] : List Rec) = [] :=
  ⟨by decide,
   c4_empty_diff_fields_modified_empty diffOld diffNew "name"
     [[("name", "d"), ("x", "4")]] ["b"] [] (by decide)⟩

/-- **C8**: when the metadata's version identifier already exists among the
target package's version records, `add_new_package_version` reports failure
(`False`) and returns the registry unchanged: no record is appended and
`latest_version` is not touched. -/
theorem c8_duplicate_version_leaves_registry_unchanged (reg : Registry)
    (rn : String) (md : Metadata) (now : String)
    (h : (findVersion reg rn md.name md.version).isSome) :
    addNewPackageVersion reg rn md now = some (reg, false) := by
  have hrep : ∃ repo, findRepository reg rn = some repo := by
    unfold findVersion findPackage at h
    cases hr : findRepository reg rn with
    | none => rw [hr] at h; simp at h
    | some repo => exact ⟨repo, rfl⟩
  obtain ⟨repo, hrep⟩ := hrep
  unfold addNewPackageVersion
  rw [hrep]
  simp [h]

theorem c8_duplicate_version_witness :
    (findVersion regOne "repo1" mdOne.name mdOne.version).isSome ∧
    addNewPackageVersion regOne "repo1" mdOne "d9" = some (regOne, false) :=
  ⟨by decide,
   c8_duplicate_version_leaves_registry_unchanged regOne "repo1" mdOne "d9" (by decide)⟩

theorem find?_updateFirst {α : Type} (p : α → Bool) (f : α → α)
    (hf : ∀ x, p x = true → p (f x) = true) :
    ∀ l : List α, List.find? p (updateFirst p f l) = (List.find? p l).map f := by
  intro l
  induction l with
  | nil => rfl
  | cons x xs ih =>
    cases hx : p x with
    | true =>
      unfold updateFirst
      rw [if_pos hx, List.find?_cons_of_pos _ (hf x hx), List.find?_cons_of_pos _ hx]
      rfl
    | false =>
      unfold updateFirst
      rw [if_neg (by simp [hx]), List.find?_cons_of_neg _ (by simp [hx]),
        List.find?_cons_of_neg _ (by simp [hx]), ih]

/-- **C5**: a package successfully created by `add_package` stores exactly one
version record — the root — with no `base_version`, with the supplied
metadata's full dependency lists as the `_added` fields, and with the full
compatibility map as `compatibility_changes`. -/
theorem c5_root_record (reg : Registry) (rn : String) (md : Metadata)
    (now : String) (reg' : Registry) (h : addPackage reg rn md now = (reg', true)) :
    ∃ pkg, findPackage reg' rn md.name = some pkg ∧
      pkg.versions.head? = some (rootRec md now) ∧
      (rootRec md now).base_version = none ∧
      (rootRec md now).hatch_dependencies_added = some md.hatch_dependencies ∧
      (rootRec md now).python_dependencies_added = some md.python_dependencies ∧
      (rootRec md now).compatibility_changes = some md.compatibility := by
  unfold addPackage at h
  cases hr : findRepository reg rn with
  | none => rw [hr] at h; simp at h
  | some repo =>
    rw [hr] at h
    by_cases hname : (md.name == "") = true
    · rw [if_pos hname] at h; simp at h
    · rw [if_neg hname] at h
      by_cases hfp : (findPackage reg rn md.name).isSome = true
      · rw [if_pos hfp] at h; simp at h
      · rw [if_neg hfp] at h
        have hreg' := (congrArg Prod.fst h).symm
        simp only at hreg'
        refine ⟨{ name := md.name, versions := [rootRec md now],
                  latest_version := md.version }, ?_, rfl, rfl, rfl, rfl, rfl⟩
        subst hreg'
        unfold findRepository at hr
        have hold : repo.packages.find? (fun p => p.name == md.name) = none := by
          have h0 : findPackage reg rn md.name = none :=
            Option.not_isSome_iff_eq_none.mp hfp
          unfold findPackage findRepository at h0
          rw [hr] at h0
          simpa using h0
        unfold findPackage findRepository updateFirstRepo
        rw [find?_updateFirst (fun r => r.name == rn)
          (fun r =>
            { name := r.name,
              packages := r.packages ++
                [{ name := md.name, versions := [rootRec md now],
                   latest_version := md.version }] })
          (fun x hx => hx) reg, hr]
        show List.find? (fun p => p.name == md.name)
          (repo.packages ++
            [{ name := md.name, versions := [rootRec md now],
               latest_version := md.version }]) =
          some { name := md.name, versions := [rootRec md now],
                 latest_version := md.version }
        rw [List.find?_append, hold]
        simp

theorem foldl_applyVersionRec_version (chain : List VersionRec) (acc : Reconstructed) :
    (chain.foldl applyVersionRec acc).version = acc.version := by
  induction chain generalizing acc with
  | nil => rfl
  | cons v vs ih => rw [List.foldl_cons, ih]; rfl

theorem chainLoop_root (pvs : List VersionRec) :
    ∀ fuel vi chain c root, chainLoop pvs fuel vi chain = some (c, root) →
      truthyBase root = false ∧ (root = vi ∨ root ∈ pvs) := by
  intro fuel
  induction fuel with
  | zero => intro vi chain c root h; cases h
  | succ n ih =>
    intro vi chain c root h
    rw [chainLoop] at h
    by_cases htr : truthyBase vi = true
    · rw [if_pos htr] at h
      cases hf : pvs.find? (fun v => v.version == vi.base_version.getD "") with
      | some next =>
        rw [hf] at h
        have hrec := ih next (chain ++ [vi]) c root h
        refine ⟨hrec.1, Or.inr ?_⟩
        rcases hrec.2 with h1 | h1
        · exact h1 ▸ List.mem_of_find?_eq_some hf
        · exact h1
      | none =>
        rw [hf] at h
        exact ih vi (chain ++ [vi]) c root h
    · rw [if_neg htr] at h
      injection h with h'
      injection h' with h1 h2
      subst h2
      exact ⟨Bool.eq_false_iff.mpr (fun he => htr he), Or.inl rfl⟩

/-- **C9**: whenever the `base_version` chain from the start record resolves
(reconstruction succeeds), the `version` field of the returned metadata is
the version identifier of the chain's root record; consequently, when the
start record is not the root (its `base_version` is set) and version
identifiers are unique, the returned `version` is not the start record's
identifier. -/
theorem c9_reconstructed_version_is_chain_root (pkg : Package) (vi : VersionRec)
    (r : Reconstructed) (h : reconstruct_package_version pkg vi = some r) :
    (∃ c root, chainLoop pkg.versions (pkg.versions.length + 2) vi [] = some (c, root) ∧
      r.version = root.version ∧ truthyBase root = false) ∧
    (truthyBase vi = true → vi ∈ pkg.versions →
      (pkg.versions.map (fun v => v.version)).Nodup → r.version ≠ vi.version) := by
  unfold reconstruct_package_version at h
  cases hc : chainLoop pkg.versions (pkg.versions.length + 2) vi [] with
  | none => rw [hc] at h; cases h
  | some p =>
    obtain ⟨c, root⟩ := p
    rw [hc] at h
    injection h with h'
    have hv : r.version = root.version := by
      rw [← h', foldl_applyVersionRec_version]
    have hroot := chainLoop_root pkg.versions _ vi [] c root hc
    refine ⟨⟨c, root, rfl, hv, hroot.1⟩, ?_⟩
    intro htr hmem hnd heq
    have hne : root ≠ vi := by
      intro he
      rw [he] at hroot
      rw [htr] at hroot
      exact Bool.true_eq_false.mp hroot.1
    have hrootmem : root ∈ pkg.versions := by
      rcases hroot.2 with h1 | h1
      · exact absurd h1 hne
      · exact h1
    rw [hv] at heq
    exact hne (List.inj_on_of_nodup_map hnd hrootmem hmem heq)

theorem c9_reconstructed_version_witness :
    reconstruct_package_version chainPkg chainPkgTop = some chainPkgRecon ∧
    ((∃ c root,
        chainLoop chainPkg.versions (chainPkg.versions.length + 2) chainPkgTop [] =
          some (c, root) ∧
        chainPkgRecon.version = root.version ∧ truthyBase root = false) ∧
      (truthyBase chainPkgTop = true → chainPkgTop ∈ chainPkg.versions →
        (chainPkg.versions.map (fun v => v.version)).Nodup →
        chainPkgRecon.version ≠ chainPkgTop.version)) :=
  ⟨by decide,
   c9_reconstructed_version_is_chain_root chainPkg chainPkgTop chainPkgRecon (by decide)⟩

theorem mem_updateFirst {α : Type} (p : α → Bool) (f : α → α) :
    ∀ (l : List α) (x : α), x ∈ updateFirst p f l → x ∈ l ∨ ∃ y, y ∈ l ∧ x = f y := by
  intro l
  induction l with
  | nil => intro x hx; cases hx
  | cons a as ih =>
    intro x hx
    unfold updateFirst at hx
    by_cases ha : p a = true
    · rw [if_pos ha] at hx
      rcases List.mem_cons.mp hx with h1 | h1
      · exact Or.inr ⟨a, List.mem_cons_self a as, h1⟩
      · exact Or.inl (List.mem_cons_of_mem _ h1)
    · rw [if_neg ha] at hx
      rcases List.mem_cons.mp hx with h1 | h1
      · exact Or.inl (h1 ▸ List.mem_cons_self a as)
      · rcases ih x h1 with h2 | ⟨y, hy, he⟩
        · exact Or.inl (List.mem_cons_of_mem _ h2)
        · exact Or.inr ⟨y, List.mem_cons_of_mem _ hy, he⟩

theorem maxByAddedDate_mem (vs : List VersionRec) :
    ∀ v, maxByAddedDate v vs ∈ v :: vs := by
  induction vs with
  | nil => intro v; exact List.mem_singleton.mpr rfl
  | cons x xs ih =>
    intro v
    rw [show maxByAddedDate v (x :: xs) =
      maxByAddedDate (if v.added_date < x.added_date then x else v) xs from rfl]
    rcases List.mem_cons.mp (ih (if v.added_date < x.added_date then x else v)) with h1 | h1
    · rw [h1]
      by_cases hlt : v.added_date < x.added_date <;> simp [hlt]
    · exact List.mem_cons_of_mem _ (List.mem_cons_of_mem _ h1)

theorem findPackage_mem (reg : Registry) (rn pn : String) (pkg : Package)
    (h : findPackage reg rn pn = some pkg) :
    ∃ repo ∈ reg, pkg ∈ repo.packages := by
  unfold findPackage findRepository at h
  cases hr : reg.find? (fun r => r.name == rn) with
  | none => rw [hr] at h; cases h
  | some repo =>
    rw [hr] at h
    exact ⟨repo, List.mem_of_find?_eq_some hr,
      List.mem_of_find?_eq_some (by simpa using h)⟩

theorem addPackage_preserves_inv (reg : Registry) (rn : String) (md : Metadata)
    (now : String) (hinv : LatestInVersions reg) :
    LatestInVersions (addPackage reg rn md now).1 := by
  unfold addPackage
  cases hr : findRepository reg rn with
  | none => exact hinv
  | some repo =>
    by_cases hname : (md.name == "") = true
    · rw [if_pos hname]; exact hinv
    · rw [if_neg hname]
      by_cases hfp : (findPackage reg rn md.name).isSome = true
      · rw [if_pos hfp]; exact hinv
      · rw [if_neg hfp]
        intro repo' hrepo' pkg hpkg hlat
        rcases mem_updateFirst _ _ reg repo' hrepo' with h1 | ⟨y, hy, he⟩
        · exact hinv repo' h1 pkg hpkg hlat
        · subst he
          rcases List.mem_append.mp hpkg with h2 | h2
          · exact hinv y hy pkg h2 hlat
          · rw [List.mem_singleton.mp h2]
            exact ⟨rootRec md now, List.mem_singleton.mpr rfl, rfl⟩

theorem addNewPackageVersion_preserves_inv (reg : Registry) (rn : String)
    (md : Metadata) (now : String) (reg' : Registry) (b : Bool)
    (h : addNewPackageVersion reg rn md now = some (reg', b))
    (hinv : LatestInVersions reg) : LatestInVersions reg' := by
  unfold addNewPackageVersion at h
  cases hr : findRepository reg rn with
  | none =>
    rw [hr] at h
    injection h with h'
    injection h' with h1 h2
    subst h1
    exact hinv
  | some repo =>
    rw [hr] at h
    by_cases hdup : (findVersion reg rn md.name md.version).isSome = true
    · rw [if_pos hdup] at h
      injection h with h'
      injection h' with h1 h2
      subst h1
      exact hinv
    · rw [if_neg hdup] at h
      cases hdd : prepareRegistryVersionDiffData reg rn md with
      | none => rw [hdd] at h; cases h
      | some dd =>
        rw [hdd] at h
        injection h with h'
        injection h' with h1 h2
        subst h1
        intro repo' hrepo' pkg hpkg hlat
        rcases mem_updateFirst _ _ reg repo' hrepo' with hm1 | ⟨y, hy, he⟩
        · exact hinv repo' hm1 pkg hpkg hlat
        · subst he
          rcases mem_updateFirst _ _ y.packages pkg hpkg with hm2 | ⟨z, hz, he2⟩
          · exact hinv y hy pkg hm2 hlat
          · subst he2
            refine ⟨_, List.mem_append_right _ (List.mem_singleton.mpr rfl), rfl⟩

theorem removeVersion_preserves_inv (reg : Registry) (rn pn ver : String)
    (hinv : LatestInVersions reg) :
    LatestInVersions (removeVersion reg rn pn ver).1 := by
  unfold removeVersion
  cases hp : findPackage reg rn pn with
  | none => exact hinv
  | some pkg =>
    show LatestInVersions (removeVersionUpdate reg rn pn ver pkg).1
    unfold removeVersionUpdate
    by_cases hlen : (pkg.versions.filter (fun v => !(v.version == ver))).length <
        pkg.versions.length
    · rw [if_pos hlen]
      intro repo' hrepo' pkg' hpkg' hlat
      rcases mem_updateFirst _ _ reg repo' hrepo' with h1 | ⟨y, hy, he⟩
      · exact hinv repo' h1 pkg' hpkg' hlat
      · subst he
        rcases mem_updateFirst _ _ y.packages pkg' hpkg' with h2 | ⟨z, hz, he2⟩
        · exact hinv y hy pkg' h2 hlat
        · subst he2
          replace hlat : (removedPackage ver pkg).latest_version ≠ "" := hlat
          show ∃ w ∈ (removedPackage ver pkg).versions,
            w.version = (removedPackage ver pkg).latest_version
          unfold removedPackage at hlat ⊢
          simp only at hlat ⊢
          by_cases hl : (pkg.latest_version == ver) = true
          · rw [if_pos hl] at hlat ⊢
            cases hnv : pkg.versions.filter (fun v => !(v.version == ver)) with
            | nil => rw [hnv] at hlat; exact absurd rfl hlat
            | cons v vs =>
              exact ⟨maxByAddedDate v vs, maxByAddedDate_mem vs v, rfl⟩
          · rw [if_neg hl] at hlat ⊢
            rcases findPackage_mem reg rn pn pkg hp with ⟨repo0, hrepo0, hpkgmem⟩
            rcases hinv repo0 hrepo0 pkg hpkgmem hlat with ⟨w, hw, hwver⟩
            refine ⟨w, List.mem_filter.mpr ⟨hw, ?_⟩, hwver⟩
            have hwv : (w.version == ver) = false := by
              rw [hwver]
              exact Bool.eq_false_iff.mpr hl
            rw [hwv]
            rfl
    · rw [if_neg hlen]
      exact hinv

/-- **C7**: the invariant "a non-empty `latest_version` names the `version`
of some stored record" is preserved by every mutating registry operation
(`add_package`, `add_new_package_version`, `remove_version`), so it holds in
every registry state reachable from a state satisfying it. -/
theorem c7_latest_version_invariant_preserved (reg reg' : Registry)
    (hstep : RegStep reg reg') (hinv : LatestInVersions reg) :
    LatestInVersions reg' := by
  rcases hstep with ⟨rn, md, now, he⟩ | ⟨rn, md, now, hcase⟩ | ⟨rn, pn, ver, he⟩
  · exact he ▸ addPackage_preserves_inv reg rn md now hinv
  · rcases hcase with ⟨-, he⟩ | ⟨b, he⟩
    · exact he ▸ hinv
    · exact addNewPackageVersion_preserves_inv reg rn md now reg' b he hinv
  · exact he ▸ removeVersion_preserves_inv reg rn pn ver hinv

theorem c7_latest_version_invariant_witness :
    RegStep regEmpty regOne ∧ LatestInVersions regEmpty ∧ LatestInVersions regOne :=
  ⟨Or.inl ⟨"repo1", mdOne, "d1", rfl⟩,
   by intro repo hr pkg hp hl; simp [regEmpty] at hr; subst hr; simp at hp,
   c7_latest_version_invariant_preserved regEmpty regOne
     (Or.inl ⟨"repo1", mdOne, "d1", rfl⟩)
     (by intro repo hr pkg hp hl; simp [regEmpty] at hr; subst hr; simp at hp)⟩

theorem c5_root_record_witness :
    addPackage regEmpty "repo1" mdOne "d1" = (regOne, true) ∧
    (∃ pkg, findPackage regOne "repo1" mdOne.name = some pkg ∧
      pkg.versions.head? = some (rootRec mdOne "d1") ∧
      (rootRec mdOne "d1").base_version = none ∧
      (rootRec mdOne "d1").hatch_dependencies_added = some mdOne.hatch_dependencies ∧
      (rootRec mdOne "d1").python_dependencies_added = some mdOne.python_dependencies ∧
      (rootRec mdOne "d1").compatibility_changes = some mdOne.compatibility) :=
  ⟨by decide, c5_root_record regEmpty "repo1" mdOne "d1" regOne (by decide)⟩

theorem dinsert_cons_eq {α : Type} (pk : String) (pv : α) (rest : List (String × α))
    (k : String) (v : α) (h : pk = k) :
    dinsert ((pk, pv) :: rest) k v = (k, v) :: rest := by
  simp [dinsert, h]

theorem dinsert_cons_ne {α : Type} (pk : String) (pv : α) (rest : List (String × α))
    (k : String) (v : α) (h : ¬ pk = k) :
    dinsert ((pk, pv) :: rest) k v = (pk, pv) :: dinsert rest k v := by
  simp [dinsert, h]

theorem akeys_cons {α : Type} (pk : String) (pv : α) (rest : List (String × α)) :
    akeys ((pk, pv) :: rest) = pk :: akeys rest := rfl

theorem dinsert_dinsert_same {α : Type} (d : List (String × α)) (k : String)
    (v w : α) : dinsert (dinsert d k v) k w = dinsert d k w := by
  induction d with
  | nil =>
    show dinsert [(k, v)] k w = [(k, w)]
    rw [dinsert_cons_eq k v [] k w rfl]
  | cons p rest ih =>
    obtain ⟨pk, pv⟩ := p
    by_cases hp : pk = k
    · rw [dinsert_cons_eq pk pv rest k v hp, dinsert_cons_eq k v rest k w rfl,
        dinsert_cons_eq pk pv rest k w hp]
    · rw [dinsert_cons_ne pk pv rest k v hp,
        dinsert_cons_ne pk pv (dinsert rest k v) k w hp,
        dinsert_cons_ne pk pv rest k w hp, ih]

theorem mem_akeys_dinsert {α : Type} (d : List (String × α)) (k : String) (v : α) :
    k ∈ akeys (dinsert d k v) := by
  induction d with
  | nil => exact List.mem_singleton.mpr rfl
  | cons p rest ih =>
    obtain ⟨pk, pv⟩ := p
    by_cases hp : pk = k
    · rw [dinsert_cons_eq pk pv rest k v hp, akeys_cons]
      exact List.mem_cons_self _ _
    · rw [dinsert_cons_ne pk pv rest k v hp, akeys_cons]
      exact List.mem_cons_of_mem _ ih

theorem mem_akeys_dinsert_of_mem {α : Type} (d : List (String × α)) (k k' : String)
    (v : α) (h : k ∈ akeys d) : k ∈ akeys (dinsert d k' v) := by
  induction d with
  | nil => cases h
  | cons p rest ih =>
    obtain ⟨pk, pv⟩ := p
    rw [akeys_cons] at h
    by_cases hp : pk = k'
    · rw [dinsert_cons_eq pk pv rest k' v hp, akeys_cons]
      rcases List.mem_cons.mp h with h1 | h1
      · exact (h1.trans hp) ▸ List.mem_cons_self _ _
      · exact List.mem_cons_of_mem _ h1
    · rw [dinsert_cons_ne pk pv rest k' v hp, akeys_cons]
      rcases List.mem_cons.mp h with h1 | h1
      · exact h1 ▸ List.mem_cons_self _ _
      · exact List.mem_cons_of_mem _ (ih h1)

theorem dinsert_comm_of_mem {α : Type} (k k' : String) (v w : α) (hne : k ≠ k') :
    ∀ d : List (String × α), k ∈ akeys d →
      dinsert (dinsert d k' w) k v = dinsert (dinsert d k v) k' w := by
  intro d
  induction d with
  | nil => intro hmem; cases hmem
  | cons p rest ih =>
    intro hmem
    obtain ⟨pk, pv⟩ := p
    rw [akeys_cons] at hmem
    by_cases hpk : pk = k
    · have hpk' : ¬ pk = k' := fun h => hne (hpk ▸ h)
      rw [dinsert_cons_ne pk pv rest k' w hpk', dinsert_cons_eq pk pv rest k v hpk,
        dinsert_cons_eq pk pv (dinsert rest k' w) k v hpk,
        dinsert_cons_ne k v rest k' w (fun h => hne h)]
    · by_cases hpk' : pk = k'
      · rw [dinsert_cons_eq pk pv rest k' w hpk', dinsert_cons_ne pk pv rest k v hpk,
          dinsert_cons_ne k' w rest k v (fun h => hne h.symm),
          dinsert_cons_eq pk pv (dinsert rest k v) k' w hpk']
      · have hmem' : k ∈ akeys rest := by
          rcases List.mem_cons.mp hmem with h1 | h1
          · exact absurd h1.symm hpk
          · exact h1
        rw [dinsert_cons_ne pk pv rest k' w hpk', dinsert_cons_ne pk pv rest k v hpk,
          dinsert_cons_ne pk pv (dinsert rest k' w) k v hpk,
          dinsert_cons_ne pk pv (dinsert rest k v) k' w hpk', ih hmem']

theorem find?_pred_of_eq_some {α : Type} (p : α → Bool) (l : List α) (a : α)
    (h : l.find? p = some a) : p a = true :=
  List.find?_some h

theorem buildDictFrom_cons (kf : String) (d : List (String × Rec)) (r : Rec)
    (rest : List Rec) (k : String) (hk : dictGet r kf = some k) :
    buildDictFrom kf d (r :: rest) = buildDictFrom kf (dinsert d k r) rest := by
  unfold buildDictFrom
  rw [List.foldl_cons]
  congr 1
  rw [hk]
  rfl

theorem buildDictFrom_filter_key (kf : String) (k : String) :
    ∀ (rest : List Rec) (D : List (String × Rec)), k ∈ akeys D →
      (∀ r ∈ rest, (dictGet r kf).isSome) →
      buildDictFrom kf D rest =
        buildDictFrom kf
          (match rest.reverse.find? (fun r' => dictGet r' kf == some k) with
           | some r'' => dinsert D k r''
           | none => D)
          (rest.filter (fun r' => !(dictGet r' kf == some k))) := by
  intro rest
  induction rest with
  | nil => intro D _ _; rfl
  | cons s rest' ih =>
    intro D hmem hs
    obtain ⟨ks, hks⟩ := Option.isSome_iff_exists.mp (hs s (List.mem_cons_self _ _))
    rw [buildDictFrom_cons kf D s rest' ks hks]
    by_cases hkk : ks = k
    · subst hkk
      have hpred : (dictGet s kf == some ks) = true := by
        rw [hks]; exact beq_self_eq_true _
      rw [show (s :: rest').filter (fun r' => !(dictGet r' kf == some ks)) =
          rest'.filter (fun r' => !(dictGet r' kf == some ks)) from by
        rw [List.filter_cons]; simp [hpred]]
      rw [show (s :: rest').reverse.find? (fun r' => dictGet r' kf == some ks) =
          ((rest'.reverse.find? (fun r' => dictGet r' kf == some ks)).or (some s)) from by
        rw [List.reverse_cons, List.find?_append]
        congr 1
        simp [hpred]]
      rw [ih (dinsert D ks s) (mem_akeys_dinsert D ks s)
        (fun r hr => hs r (List.mem_cons_of_mem _ hr))]
      congr 1
      cases hfind : rest'.reverse.find? (fun r' => dictGet r' kf == some ks) with
      | none => rfl
      | some r'' => exact dinsert_dinsert_same D ks s r''
    · have hpred : (dictGet s kf == some k) = false := by
        rw [hks]
        simpa using hkk
      rw [show (s :: rest').filter (fun r' => !(dictGet r' kf == some k)) =
          s :: rest'.filter (fun r' => !(dictGet r' kf == some k)) from by
        rw [List.filter_cons]; simp [hpred]]
      rw [show (s :: rest').reverse.find? (fun r' => dictGet r' kf == some k) =
          rest'.reverse.find? (fun r' => dictGet r' kf == some k) from by
        rw [List.reverse_cons, List.find?_append]
        simp [hpred]]
      rw [ih (dinsert D ks s) (mem_akeys_dinsert_of_mem D k ks s hmem)
        (fun r hr => hs r (List.mem_cons_of_mem _ hr))]
      rw [buildDictFrom_cons kf _ s _ ks hks]
      congr 1
      cases hfind : rest'.reverse.find? (fun r' => dictGet r' kf == some k) with
      | none => rfl
      | some r'' => exact dinsert_comm_of_mem k ks r'' s (fun h => hkk h.symm) D hmem

theorem buildDictFrom_lastWins (kf : String) :
    ∀ (n : Nat) (l : List Rec), l.length ≤ n →
      (∀ r ∈ l, (dictGet r kf).isSome) →
      ∀ d, buildDictFrom kf d (lastWins kf l) = buildDictFrom kf d l := by
  intro n
  induction n with
  | zero =>
    intro l hl _ d
    rw [List.length_eq_zero.mp (Nat.le_zero.mp hl)]
    rw [lastWins]
  | succ n ih =>
    intro l hl hs d
    cases l with
    | nil => rw [lastWins]
    | cons r rest =>
      obtain ⟨k, hk⟩ := Option.isSome_iff_exists.mp (hs r (List.mem_cons_self _ _))
      rw [lastWins, hk]
      have hrest : ∀ x ∈ rest, (dictGet x kf).isSome :=
        fun x hx => hs x (List.mem_cons_of_mem _ hx)
      have hlenf : (rest.filter (fun r' => !(dictGet r' kf == some k))).length ≤ n := by
        have h1 : (rest.filter (fun r' => !(dictGet r' kf == some k))).length ≤
            rest.length := List.length_filter_le _ _
        have h2 : rest.length ≤ n := by
          simpa [Nat.succ_le_succ_iff] using hl
        exact le_trans h1 h2
      have hsf : ∀ x ∈ rest.filter (fun r' => !(dictGet r' kf == some k)),
          (dictGet x kf).isSome :=
        fun x hx => hrest x (List.mem_of_mem_filter hx)
      cases hfind : rest.reverse.find? (fun r' => dictGet r' kf == some k) with
      | none =>
        show buildDictFrom kf d
            (r :: lastWins kf (rest.filter (fun r' => !(dictGet r' kf == some k)))) =
          buildDictFrom kf d (r :: rest)
        rw [buildDictFrom_cons kf d r
          (lastWins kf (rest.filter (fun r' => !(dictGet r' kf == some k)))) k hk]
        rw [ih _ hlenf hsf (dinsert d k r)]
        rw [buildDictFrom_cons kf d r rest k hk]
        rw [buildDictFrom_filter_key kf k rest (dinsert d k r)
          (mem_akeys_dinsert d k r) hrest]
        rw [hfind]
      | some r'' =>
        have hbeq : (dictGet r'' kf == some k) = true :=
          find?_pred_of_eq_some (fun r' => dictGet r' kf == some k) rest.reverse r'' hfind
        have hw : dictGet r'' kf = some k := eq_of_beq hbeq
        show buildDictFrom kf d
            (r'' :: lastWins kf (rest.filter (fun r' => !(dictGet r' kf == some k)))) =
          buildDictFrom kf d (r :: rest)
        rw [buildDictFrom_cons kf d r''
          (lastWins kf (rest.filter (fun r' => !(dictGet r' kf == some k)))) k hw]
        rw [ih _ hlenf hsf (dinsert d k r'')]
        rw [buildDictFrom_cons kf d r rest k hk]
        rw [buildDictFrom_filter_key kf k rest (dinsert d k r)
          (mem_akeys_dinsert d k r) hrest]
        rw [hfind]
        show buildDictFrom kf (dinsert d k r'')
            (rest.filter (fun r' => !(dictGet r' kf == some k))) =
          buildDictFrom kf (dinsert (dinsert d k r) k r'')
            (rest.filter (fun r' => !(dictGet r' kf == some k)))
        rw [dinsert_dinsert_same]

theorem buildDictFrom_isSome (kf : String) :
    ∀ (l : List Rec) (d), (∀ r ∈ l, (dictGet r kf).isSome) →
      (buildDictFrom kf d l).isSome := by
  intro l
  induction l with
  | nil => intro d _; rfl
  | cons r rest ih =>
    intro d hs
    obtain ⟨k, hk⟩ := Option.isSome_iff_exists.mp (hs r (List.mem_cons_self _ _))
    rw [buildDictFrom_cons kf d r rest k hk]
    exact ih (dinsert d k r) (fun x hx => hs x (List.mem_cons_of_mem _ hx))

/-- **C10**: when an input of `_compute_generic_diff` contains several
records with the same key-field value, the call does not fail, and it
behaves exactly as if only the last record with each key were present in
that input (last write wins), for both inputs and all three outputs. -/
theorem c10_duplicate_keys_last_write_wins (old_items new_items : List Rec)
    (keyField : String) (diffFields : List String)
    (hOld : ∀ r ∈ old_items, (dictGet r keyField).isSome)
    (hNew : ∀ r ∈ new_items, (dictGet r keyField).isSome) :
    (computeGenericDiff old_items new_items keyField diffFields).isSome ∧
    computeGenericDiff old_items new_items keyField diffFields =
      computeGenericDiff (lastWins keyField old_items) (lastWins keyField new_items)
        keyField diffFields := by
  have hbo : buildDict keyField (lastWins keyField old_items) =
      buildDict keyField old_items :=
    buildDictFrom_lastWins keyField old_items.length old_items le_rfl hOld []
  have hbn : buildDict keyField (lastWins keyField new_items) =
      buildDict keyField new_items :=
    buildDictFrom_lastWins keyField new_items.length new_items le_rfl hNew []
  constructor
  · obtain ⟨od, hod⟩ := Option.isSome_iff_exists.mp
      (buildDictFrom_isSome keyField old_items [] hOld)
    obtain ⟨nd, hnd⟩ := Option.isSome_iff_exists.mp
      (buildDictFrom_isSome keyField new_items [] hNew)
    unfold computeGenericDiff
    rw [show buildDict keyField old_items = some od from hod,
      show buildDict keyField new_items = some nd from hnd]
    rfl
  · unfold computeGenericDiff
    rw [hbo, hbn]

theorem c10_duplicate_keys_witness :
    (∀ r ∈ dupOld, (dictGet r "name").isSome) ∧
    (∀ r ∈ dupNew, (dictGet r "name").isSome) ∧
    ((computeGenericDiff dupOld dupNew "name" ["x"]).isSome ∧
      computeGenericDiff dupOld dupNew "name" ["x"] =
        computeGenericDiff (lastWins "name" dupOld) (lastWins "name" dupNew)
          "name" ["x"]) :=
  ⟨by decide, by decide,
   c10_duplicate_keys_last_write_wins dupOld dupNew "name" ["x"]
     (by decide) (by decide)⟩

theorem dinsert_append {α : Type} (k : String) (v : α) :
    ∀ d : List (String × α), (∀ p ∈ d, p.1 ≠ k) → dinsert d k v = d ++ [(k, v)] := by
  intro d
  induction d with
  | nil => intro _; rfl
  | cons p rest ih =>
    intro h
    obtain ⟨pk, pv⟩ := p
    rw [dinsert_cons_ne pk pv rest k v (h (pk, pv) (List.mem_cons_self _ _)),
      ih (fun q hq => h q (List.mem_cons_of_mem _ hq))]
    rfl

theorem buildDictFrom_of_nodup (kf : String) :
    ∀ (l : List Rec) (d : List (String × Rec)),
      (∀ r ∈ l, (dictGet r kf).isSome) →
      (l.map (fun r => dictGet r kf)).Nodup →
      (∀ r ∈ l, ∀ p ∈ d, dictGet r kf ≠ some p.1) →
      buildDictFrom kf d l =
        some (d ++ l.map (fun r => ((dictGet r kf).getD "", r))) := by
  intro l
  induction l with
  | nil => intro d _ _ _; simp [buildDictFrom]
  | cons r rest ih =>
    intro d hs hnd hdisj
    obtain ⟨k, hk⟩ := Option.isSome_iff_exists.mp (hs r (List.mem_cons_self _ _))
    rw [buildDictFrom_cons kf d r rest k hk]
    rw [dinsert_append k r d
      (fun p hp he => hdisj r (List.mem_cons_self _ _) p hp (by rw [hk, he]))]
    have hnd' : (rest.map (fun x => dictGet x kf)).Nodup :=
      (List.nodup_cons.mp (by simpa using hnd)).2
    have hhead : dictGet r kf ∉ rest.map (fun x => dictGet x kf) :=
      (List.nodup_cons.mp (by simpa using hnd)).1
    have hdisj' : ∀ x ∈ rest, ∀ p ∈ d ++ [(k, r)], dictGet x kf ≠ some p.1 := by
      intro x hx p hp
      rcases List.mem_append.mp hp with h1 | h1
      · exact hdisj x (List.mem_cons_of_mem _ hx) p h1
      · rw [List.mem_singleton.mp h1]
        intro hxk
        have hxr : dictGet x kf = dictGet r kf := by
          rw [hk]
          exact hxk
        exact hhead (hxr ▸ List.mem_map_of_mem _ hx)
    rw [ih (d ++ [(k, r)]) (fun x hx => hs x (List.mem_cons_of_mem _ hx)) hnd' hdisj']
    rw [List.map_cons, hk]
    simp

theorem find?_cons_pos {α : Type} (p : α → Bool) (a : α) (l : List α)
    (h : p a = true) : (a :: l).find? p = some a :=
  List.find?_cons_of_pos l h

theorem find?_cons_neg {α : Type} (p : α → Bool) (a : α) (l : List α)
    (h : ¬ p a = true) : (a :: l).find? p = l.find? p :=
  List.find?_cons_of_neg l (by simpa using h)

theorem alookup_map_pair (kf : String) (key : String) :
    ∀ l : List Rec,
      alookup (l.map (fun r => ((dictGet r kf).getD "", r))) key =
        l.find? (fun r => (dictGet r kf).getD "" == key) := by
  intro l
  induction l with
  | nil => rfl
  | cons r rest ih =>
    rw [List.map_cons]
    by_cases hp : ((dictGet r kf).getD "" == key) = true
    · unfold alookup
      rw [find?_cons_pos (fun p => p.1 == key) ((dictGet r kf).getD "", r)
          (rest.map (fun x => ((dictGet x kf).getD "", x))) hp,
        find?_cons_pos (fun x => (dictGet x kf).getD "" == key) r rest hp]
      rfl
    · unfold alookup at ih ⊢
      rw [find?_cons_neg (fun p => p.1 == key) ((dictGet r kf).getD "", r)
          (rest.map (fun x => ((dictGet x kf).getD "", x))) hp,
        find?_cons_neg (fun x => (dictGet x kf).getD "" == key) r rest hp]
      exact ih

theorem getD_eq_iff_of_isSome (x y : Option String) (hx : x.isSome) (hy : y.isSome) :
    x.getD "" = y.getD "" ↔ x = y := by
  obtain ⟨a, rfl⟩ := Option.isSome_iff_exists.mp hx
  obtain ⟨b, rfl⟩ := Option.isSome_iff_exists.mp hy
  simp

theorem find?_keyStr_eq_some (kf : String) (l : List Rec) (o : Rec) (key : String)
    (hs : ∀ r ∈ l, (dictGet r kf).isSome)
    (hnd : (l.map (fun r => dictGet r kf)).Nodup)
    (ho : o ∈ l) (hkey : (dictGet o kf).getD "" = key) :
    l.find? (fun r => (dictGet r kf).getD "" == key) = some o := by
  have hsome : (l.find? (fun r => (dictGet r kf).getD "" == key)).isSome :=
    List.find?_isSome.mpr ⟨o, ho, by rw [hkey]; exact beq_self_eq_true _⟩
  obtain ⟨o', ho'⟩ := Option.isSome_iff_exists.mp hsome
  have ho'mem := List.mem_of_find?_eq_some ho'
  have hpred := find?_pred_of_eq_some (fun r => (dictGet r kf).getD "" == key) l o' ho'
  have hk' : (dictGet o' kf).getD "" = key := eq_of_beq hpred
  have hoo : o' = o := by
    apply List.inj_on_of_nodup_map hnd ho'mem ho
    exact (getD_eq_iff_of_isSome _ _ (hs o' ho'mem) (hs o ho)).mp (hk'.trans hkey.symm)
  rw [ho', hoo]

/-- **C6**: with uniquely-keyed inputs, `_compute_generic_diff` returns:
added = exactly the full new records whose key is absent from the old list;
removed = exactly the bare keys (strings) present in the old list but absent
from the new; modified = exactly the full new records whose key is shared and
for which at least one watched field differs between the old and new
records. -/
theorem c6_generic_diff_output_characterization (old_items new_items : List Rec)
    (keyField : String) (diffFields : List String)
    (hOldSome : ∀ r ∈ old_items, (dictGet r keyField).isSome)
    (hNewSome : ∀ r ∈ new_items, (dictGet r keyField).isSome)
    (hOldNd : (old_items.map (fun r => dictGet r keyField)).Nodup)
    (hNewNd : (new_items.map (fun r => dictGet r keyField)).Nodup)
    (a : List Rec) (rk : List String) (m : List Rec)
    (heq : computeGenericDiff old_items new_items keyField diffFields =
      some (a, rk, m)) :
    (∀ rec, rec ∈ a ↔ rec ∈ new_items ∧
      ∀ o ∈ old_items, dictGet o keyField ≠ dictGet rec keyField) ∧
    (∀ k, k ∈ rk ↔ (∃ o ∈ old_items, dictGet o keyField = some k) ∧
      ∀ nr ∈ new_items, dictGet nr keyField ≠ some k) ∧
    (∀ rec, rec ∈ m ↔ rec ∈ new_items ∧
      ∃ o ∈ old_items, dictGet o keyField = dictGet rec keyField ∧
        ∃ f ∈ diffFields, dictGet o f ≠ dictGet rec f) := by
  have hodB : buildDict keyField old_items =
      some (old_items.map (fun r => ((dictGet r keyField).getD "", r))) := by
    have h := buildDictFrom_of_nodup keyField old_items [] hOldSome hOldNd
      (fun r hr p hp => absurd hp (List.not_mem_nil p))
    simpa using h
  have hndB : buildDict keyField new_items =
      some (new_items.map (fun r => ((dictGet r keyField).getD "", r))) := by
    have h := buildDictFrom_of_nodup keyField new_items [] hNewSome hNewNd
      (fun r hr p hp => absurd hp (List.not_mem_nil p))
    simpa using h
  unfold computeGenericDiff at heq
  rw [hodB, hndB] at heq
  simp only [Option.some.injEq, Prod.mk.injEq] at heq
  obtain ⟨ha, hrk, hm⟩ := heq
  subst ha
  subst hrk
  subst hm
  refine ⟨?_, ?_, ?_⟩
  · intro rec
    constructor
    · intro hrec
      obtain ⟨p, hpmem, hp2⟩ := List.mem_map.mp hrec
      obtain ⟨hpnd, hpred⟩ := List.mem_filter.mp hpmem
      obtain ⟨r', hr'mem, hr'eq⟩ := List.mem_map.mp hpnd
      have hrr : r' = rec := by rw [← hp2, ← hr'eq]
      subst hrr
      refine ⟨hr'mem, ?_⟩
      intro o ho heqkey
      have hnone : alookup (old_items.map
          (fun r => ((dictGet r keyField).getD "", r))) p.1 = none := by
        cases halo : alookup (old_items.map
            (fun r => ((dictGet r keyField).getD "", r))) p.1 with
        | none => rfl
        | some z => rw [halo] at hpred; simp at hpred
      rw [← hr'eq, alookup_map_pair] at hnone
      apply List.find?_eq_none.mp hnone o ho
      rw [heqkey]
      exact beq_self_eq_true _
    · rintro ⟨hrecnew, hforall⟩
      apply List.mem_map.mpr
      refine ⟨((dictGet rec keyField).getD "", rec), ?_, rfl⟩
      apply List.mem_filter.mpr
      refine ⟨List.mem_map_of_mem _ hrecnew, ?_⟩
      have hnone : alookup (old_items.map
          (fun r => ((dictGet r keyField).getD "", r)))
          ((dictGet rec keyField).getD "") = none := by
        rw [alookup_map_pair]
        apply List.find?_eq_none.mpr
        intro o ho hbeq
        exact hforall o ho ((getD_eq_iff_of_isSome _ _ (hOldSome o ho)
          (hNewSome rec hrecnew)).mp (eq_of_beq hbeq))
      show (!(alookup (old_items.map
        (fun r => ((dictGet r keyField).getD "", r)))
        ((dictGet rec keyField).getD "")).isSome) = true
      rw [hnone]
      rfl
  · intro k
    constructor
    · intro hk
      obtain ⟨p, hpmem, hp1⟩ := List.mem_map.mp hk
      obtain ⟨hpod, hpred⟩ := List.mem_filter.mp hpmem
      obtain ⟨o, homem, hoeq⟩ := List.mem_map.mp hpod
      have hko : (dictGet o keyField).getD "" = k := by rw [← hp1, ← hoeq]
      obtain ⟨ko, hko2⟩ := Option.isSome_iff_exists.mp (hOldSome o homem)
      have hdg : dictGet o keyField = some k := by
        rw [hko2] at hko ⊢
        simpa using hko
      refine ⟨⟨o, homem, hdg⟩, ?_⟩
      intro nr hnr hcon
      have hnone : alookup (new_items.map
          (fun r => ((dictGet r keyField).getD "", r))) p.1 = none := by
        cases halo : alookup (new_items.map
            (fun r => ((dictGet r keyField).getD "", r))) p.1 with
        | none => rfl
        | some z => rw [halo] at hpred; simp at hpred
      rw [← hoeq, alookup_map_pair] at hnone
      apply List.find?_eq_none.mp hnone nr hnr
      show ((dictGet nr keyField).getD "" ==
        ((dictGet o keyField).getD "", o).1) = true
      rw [hcon, hdg]
      exact beq_self_eq_true k
    · rintro ⟨⟨o, homem, hdg⟩, hnotnew⟩
      apply List.mem_map.mpr
      refine ⟨((dictGet o keyField).getD "", o), ?_, by rw [hdg]; rfl⟩
      apply List.mem_filter.mpr
      refine ⟨List.mem_map_of_mem _ homem, ?_⟩
      have hnone : alookup (new_items.map
          (fun r => ((dictGet r keyField).getD "", r)))
          ((dictGet o keyField).getD "") = none := by
        rw [alookup_map_pair]
        apply List.find?_eq_none.mpr
        intro nr hnr hbeq
        have h2 : dictGet nr keyField = dictGet o keyField :=
          (getD_eq_iff_of_isSome _ _ (hNewSome nr hnr)
            (hOldSome o homem)).mp (eq_of_beq hbeq)
        exact hnotnew nr hnr (h2.trans hdg)
      show (!(alookup (new_items.map
        (fun r => ((dictGet r keyField).getD "", r)))
        ((dictGet o keyField).getD "")).isSome) = true
      rw [hnone]
      rfl
  · intro rec
    constructor
    · intro hrec
      obtain ⟨p, hpmem, hp2⟩ := List.mem_map.mp hrec
      obtain ⟨hpnd, hpred⟩ := List.mem_filter.mp hpmem
      obtain ⟨r', hr'mem, hr'eq⟩ := List.mem_map.mp hpnd
      have hrr : r' = rec := by rw [← hp2, ← hr'eq]
      subst hrr
      refine ⟨hr'mem, ?_⟩
      cases halo : alookup (old_items.map
          (fun r => ((dictGet r keyField).getD "", r))) p.1 with
      | none =>
        rw [halo] at hpred
        simp at hpred
      | some oldI =>
        rw [halo] at hpred
        have hany : diffFields.any
            (fun g => !(dictGet oldI g == dictGet p.2 g)) = true := hpred
        rw [hp2] at hany
        rw [← hr'eq, alookup_map_pair] at halo
        have hmemI := List.mem_of_find?_eq_some halo
        have hpredI := find?_pred_of_eq_some
          (fun r => (dictGet r keyField).getD "" ==
            ((dictGet r' keyField).getD "", r').1) old_items oldI halo
        have hkeyI : dictGet oldI keyField = dictGet r' keyField :=
          (getD_eq_iff_of_isSome _ _ (hOldSome oldI hmemI)
            (hNewSome r' hr'mem)).mp (eq_of_beq hpredI)
        obtain ⟨f, hf, hfne⟩ := List.any_eq_true.mp hany
        refine ⟨oldI, hmemI, hkeyI, f, hf, ?_⟩
        intro hcon
        rw [hcon] at hfne
        simp at hfne
    · rintro ⟨hrecnew, o, homem, hkeyeq, f, hf, hne⟩
      apply List.mem_map.mpr
      refine ⟨((dictGet rec keyField).getD "", rec), ?_, rfl⟩
      apply List.mem_filter.mpr
      refine ⟨List.mem_map_of_mem _ hrecnew, ?_⟩
      have halo : alookup (old_items.map
          (fun r => ((dictGet r keyField).getD "", r)))
          ((dictGet rec keyField).getD "") = some o := by
        rw [alookup_map_pair]
        exact find?_keyStr_eq_some keyField old_items o
          ((dictGet rec keyField).getD "") hOldSome hOldNd homem
          (by rw [hkeyeq])
      show (match alookup (old_items.map
          (fun r => ((dictGet r keyField).getD "", r)))
          ((dictGet rec keyField).getD "") with
        | some oldItem => diffFields.any
            (fun g => !(dictGet oldItem g == dictGet rec g))
        | none => false) = true
      rw [halo]
      show diffFields.any (fun g => !(dictGet o g == dictGet rec g)) = true
      apply List.any_eq_true.mpr
      refine ⟨f, hf, ?_⟩
      simp [hne]

theorem c6_generic_diff_witness :
    (∀ r ∈ diffOld, (dictGet r "name").isSome) ∧
    (∀ r ∈ diffNew, (dictGet r "name").isSome) ∧
    (diffOld.map (fun r => dictGet r "name")).Nodup ∧
    (diffNew.map (fun r => dictGet r "name")).Nodup ∧
    computeGenericDiff diffOld diffNew "name" ["x"] =
      some ([[("name", "d"), ("x", "4")]], ["b"], [[("name", "a"), ("x", "9")]]) ∧
    ((∀ rec, rec ∈ ([[("name", "d"), ("x", "4")]] : List Rec) ↔ rec ∈ diffNew ∧
        ∀ o ∈ diffOld, dictGet o "name" ≠ dictGet rec "name") ∧
      (∀ k, k ∈ ["b"] ↔ (∃ o ∈ diffOld, dictGet o "name" = some k) ∧
        ∀ nr ∈ diffNew, dictGet nr "name" ≠ some k) ∧
      (∀ rec, rec ∈ ([[("name", "a"), ("x", "9")]] : List Rec) ↔ rec ∈ diffNew ∧
        ∃ o ∈ diffOld, dictGet o "name" = dictGet rec "name" ∧
          ∃ f ∈ ["x"], dictGet o f ≠ dictGet rec f)) :=
  ⟨by decide, by decide, by decide, by decide, by decide,
   c6_generic_diff_output_characterization diffOld diffNew "name" ["x"]
     (by decide) (by decide) (by decide) (by decide)
     [[("name", "d"), ("x", "4")]] ["b"] [[("name", "a"), ("x", "9")]] (by decide)⟩

end HatchRegistry
